import Mathlib

set_option maxRecDepth 1000000

/-!
# Verification of a single-node proof-of-work ledger

Shallow embedding of `src/Blockchain/main.rs`: a `Block` record, the
SHA-256 based `hash_block` function, the `mine_block` proof-of-work
search, and the mutex-guarded chain operations (`Blockchain::new`,
`add_block`), together with an interleaving model for the two-phase
read-tail / append protocol run by concurrent workers.

Machine integers (`u64`, `u32`, `u8`) are modelled as `Nat` with explicit
reduction modulo `2^32` / `2^8` where the code wraps.  The nondeterministic
`now()` call is modelled by passing the captured timestamp as an explicit
parameter.  The unbounded `loop` in `mine_block` is modelled by a
fuel-indexed iteration `mineLoop`; running out of fuel returns `none`.
-/

namespace Blockchain

/-! ## SHA-256 (FIPS 180-4), pure `Nat` implementation

Models the `sha2::Sha256` dependency used at `main.rs:58-63`.
All 32-bit words are `Nat`s kept below `2^32` by explicit `% 2^32`. -/

/-- Reduce modulo `2^32` (wrapping 32-bit arithmetic). -/
def w32 (n : Nat) : Nat := n % 4294967296

/-- Right-rotate a 32-bit word by `n` bits (`0 < n < 32`). -/
def rotr (n x : Nat) : Nat := w32 ((x >>> n) ||| (x <<< (32 - n)))

/-- The choice function Ch(x,y,z) from FIPS 180-4. -/
def ch (x y z : Nat) : Nat := (x &&& y) ^^^ ((4294967295 ^^^ x) &&& z)

/-- The majority function Maj(x,y,z) from FIPS 180-4. -/
def maj (x y z : Nat) : Nat := (x &&& y) ^^^ (x &&& z) ^^^ (y &&& z)

/-- Big sigma-0 of FIPS 180-4. -/
def bsig0 (x : Nat) : Nat := rotr 2 x ^^^ rotr 13 x ^^^ rotr 22 x

/-- Big sigma-1 of FIPS 180-4. -/
def bsig1 (x : Nat) : Nat := rotr 6 x ^^^ rotr 11 x ^^^ rotr 25 x

/-- Small sigma-0 of FIPS 180-4. -/
def ssig0 (x : Nat) : Nat := rotr 7 x ^^^ rotr 18 x ^^^ (x >>> 3)

/-- Small sigma-1 of FIPS 180-4. -/
def ssig1 (x : Nat) : Nat := rotr 17 x ^^^ rotr 19 x ^^^ (x >>> 10)

/-- The 64 SHA-256 round constants (decimal renderings of the FIPS 180-4
words 428a2f98, 71374491, … , c67178f2). -/
def K256 : List Nat :=
  [1116352408, 1899447441, 3049323471, 3921009573, 961987163,
   1508970993, 2453635748, 2870763221, 3624381080, 310598401,
   607225278, 1426881987, 1925078388, 2162078206, 2614888103,
   3248222580, 3835390401, 4022224774, 264347078, 604807628,
   770255983, 1249150122, 1555081692, 1996064986, 2554220882,
   2821834349, 2952996808, 3210313671, 3336571891, 3584528711,
   113926993, 338241895, 666307205, 773529912, 1294757372,
   1396182291, 1695183700, 1986661051, 2177026350, 2456956037,
   2730485921, 2820302411, 3259730800, 3345764771, 3516065817,
   3600352804, 4094571909, 275423344, 430227734, 506948616,
   659060556, 883997877, 958139571, 1322822218, 1537002063,
   1747873779, 1955562222, 2024104815, 2227730452, 2361852424,
   2428436474, 2756734187, 3204031479, 3329325298]

/-- The running 8-word hash state `(a,…,h)`. -/
structure Hash8 where
  a : Nat
  b : Nat
  c : Nat
  d : Nat
  e : Nat
  f : Nat
  g : Nat
  h : Nat
deriving Repr, DecidableEq

/-- SHA-256 initial hash value (decimal renderings of the FIPS 180-4
words 6a09e667, … , 5be0cd19). -/
def H0 : Hash8 :=
  ⟨1779033703, 3144134277, 1013904242, 2773480762,
   1359893119, 2600822924, 528734635, 1541459225⟩

/-- Extend a 16-word message block to the full 64-word schedule:
each step appends `σ₁(w[t-2]) + w[t-7] + σ₀(w[t-15]) + w[t-16]` (mod `2^32`). -/
def extendSchedule : Nat → List Nat → List Nat
  | 0, ws => ws
  | k + 1, ws =>
      let t := ws.length
      extendSchedule k (ws ++ [w32 (ssig1 (ws.getD (t - 2) 0) + ws.getD (t - 7) 0 +
        ssig0 (ws.getD (t - 15) 0) + ws.getD (t - 16) 0)])

/-- One SHA-256 compression round using round constant `k` and schedule word `w`. -/
def round256 (st : Hash8) (kw : Nat × Nat) : Hash8 :=
  let t1 := w32 (st.h + bsig1 st.e + ch st.e st.f st.g + kw.1 + kw.2)
  let t2 := w32 (bsig0 st.a + maj st.a st.b st.c)
  ⟨w32 (t1 + t2), st.a, st.b, st.c, w32 (st.d + t1), st.e, st.f, st.g⟩

/-- Compress one 64-byte block (given as 16 words) into the hash state. -/
def compressBlock (st : Hash8) (blockWords : List Nat) : Hash8 :=
  let ws := extendSchedule 48 blockWords
  let r := (K256.zip ws).foldl round256 st
  ⟨w32 (st.a + r.a), w32 (st.b + r.b), w32 (st.c + r.c), w32 (st.d + r.d),
   w32 (st.e + r.e), w32 (st.f + r.f), w32 (st.g + r.g), w32 (st.h + r.h)⟩

/-- Group a list of bytes into big-endian 32-bit words (4 bytes each). -/
def bytesToWords : List Nat → List Nat
  | b0 :: b1 :: b2 :: b3 :: rest =>
      (b0 * 16777216 + b1 * 65536 + b2 * 256 + b3) :: bytesToWords rest
  | _ => []

/-- Split a byte list into consecutive 64-byte chunks; the first argument
is a structural-recursion bound (any value at least the list length
works, since every step consumes at least one byte). -/
def chunk64Aux : Nat → List Nat → List (List Nat)
  | 0, _ => []
  | _, [] => []
  | n + 1, b :: bs => (b :: bs).take 64 :: chunk64Aux n ((b :: bs).drop 64)

/-- Split a byte list into consecutive 64-byte chunks. -/
def chunk64 (bs : List Nat) : List (List Nat) := chunk64Aux bs.length bs

/-- Big-endian 8-byte rendering of a 64-bit length field. -/
def u64be (n : Nat) : List Nat :=
  [(n >>> 56) % 256, (n >>> 48) % 256, (n >>> 40) % 256, (n >>> 32) % 256,
   (n >>> 24) % 256, (n >>> 16) % 256, (n >>> 8) % 256, n % 256]

/-- SHA-256 padding: append `0x80`, zero bytes to 56 mod 64, then the
64-bit big-endian bit length. -/
def sha256pad (msg : List Nat) : List Nat :=
  let L := msg.length
  msg ++ [0x80] ++ List.replicate ((119 - L % 64) % 64) 0 ++ u64be (8 * L)

/-- Big-endian 4-byte rendering of a 32-bit word. -/
def wordBytes (w : Nat) : List Nat :=
  [(w >>> 24) % 256, (w >>> 16) % 256, (w >>> 8) % 256, w % 256]

/-- SHA-256 of a byte list: 32 output bytes. -/
def sha256 (msg : List Nat) : List Nat :=
  let final := (chunk64 (sha256pad msg)).foldl
    (fun st block => compressBlock st (bytesToWords block)) H0
  wordBytes final.a ++ wordBytes final.b ++ wordBytes final.c ++ wordBytes final.d ++
  wordBytes final.e ++ wordBytes final.f ++ wordBytes final.g ++ wordBytes final.h

/-! ## Hex rendering and UTF-8 bytes -/

/-- Lowercase hex digit for a nibble. -/
def hexDigit : Nat → Char
  | 0 => '0' | 1 => '1' | 2 => '2' | 3 => '3'
  | 4 => '4' | 5 => '5' | 6 => '6' | 7 => '7'
  | 8 => '8' | 9 => '9' | 10 => 'a' | 11 => 'b'
  | 12 => 'c' | 13 => 'd' | 14 => 'e' | 15 => 'f'
  | _ => '0'

/-- Render a byte list as a lowercase hex string, two digits per byte
(the `format!("{:x}", hasher.finalize())` rendering at `main.rs:62`). -/
def bytesToHexStr (bs : List Nat) : String :=
  String.mk (bs.flatMap fun b => [hexDigit (b / 16), hexDigit (b % 16)])

/-- UTF-8 encoding of one character (codepoint as `Nat`). -/
def utf8EncodeChar (c : Char) : List Nat :=
  let n := c.toNat
  if n < 128 then [n]
  else if n < 2048 then [192 ||| (n >>> 6), 128 ||| (n &&& 63)]
  else if n < 65536 then
    [224 ||| (n >>> 12), 128 ||| ((n >>> 6) &&& 63), 128 ||| (n &&& 63)]
  else
    [240 ||| (n >>> 18), 128 ||| ((n >>> 12) &&& 63),
     128 ||| ((n >>> 6) &&& 63), 128 ||| (n &&& 63)]

/-- UTF-8 bytes of a string (Rust's `str::as_bytes`). -/
def utf8Bytes (s : String) : List Nat := s.data.flatMap utf8EncodeChar

/-! ## The program: `src/Blockchain/main.rs` -/

/-- One ledger entry (`main.rs:7-15`). -/
structure Block where
  index : Nat
  timestamp : Nat
  data : String
  prev_hash : String
  hash : String
  nonce : Nat
deriving Repr, DecidableEq, Inhabited

/-- The hash pre-image built at `main.rs:59`:
`format!` of the five fields with empty placeholders, i.e. the decimal
renderings of `index`, `timestamp`, `nonce` and the raw `data` and
`prev_hash` strings concatenated with no separators. -/
def preimage (index timestamp : Nat) (data prev_hash : String) (nonce : Nat) : String :=
  toString index ++ toString timestamp ++ data ++ prev_hash ++ toString nonce

/-- The function `hash_block` (`main.rs:58-63`): SHA-256 of the UTF-8 bytes of
the pre-image, rendered as lowercase hex. -/
def hash_block (index timestamp : Nat) (data prev_hash : String) (nonce : Nat) : String :=
  bytesToHexStr (sha256 (utf8Bytes (preimage index timestamp data prev_hash nonce)))

/-- The sentinel digest of `main.rs:28-29`, Rust `"0".repeat(64)`. -/
def zeros64 : String := String.mk (List.replicate 64 '0')

/-- The `loop` body of `mine_block` (`main.rs:72-85`), made structurally
recursive over an explicit `fuel` bound: each step hashes the current
`nonce`, returns the sealed block when the digest starts with `"0000"`
(the check `&hash[..4] == "0000"` at `main.rs:74`), and otherwise retries
with `nonce + 1`.  `none` means the bound was reached before success; the
Rust loop itself is the limit over all fuels. -/
def mineLoop (index timestamp : Nat) (data prev_hash : String) : Nat → Nat → Option Block
  | _, 0 => none
  | nonce, fuel + 1 =>
      let hash := hash_block index timestamp data prev_hash nonce
      if hash.take 4 = "0000" then
        some { index := index, timestamp := timestamp, data := data,
               prev_hash := prev_hash, hash := hash, nonce := nonce }
      else
        mineLoop index timestamp data prev_hash (nonce + 1) fuel

/-- The function `mine_block` (`main.rs:66-86`).  The single `now()` call at
`main.rs:68` is modelled by the `timestamp` parameter, captured once and used
for every attempt; the search starts at `nonce = 0` (`main.rs:70`). -/
def mine_block (prev_block : Block) (data : String) (timestamp fuel : Nat) : Option Block :=
  mineLoop (prev_block.index + 1) timestamp data prev_block.hash 0 fuel

/-- The chain freshly built by `Blockchain::new` (`main.rs:23-36`); the
`now()` call at `main.rs:26` is the parameter `t`.  The chain state inside
the mutex is the plain list of blocks. -/
def new (t : Nat) : List Block :=
  [{ index := 0, timestamp := t, data := "Genesis Block",
     prev_hash := zeros64, hash := zeros64, nonce := 0 }]

/-- The unconditional `Vec::push` at `main.rs:41`: the block is appended
with no validation of any of its fields. -/
def push (chain : List Block) (b : Block) : List Block := chain ++ [b]

/-- `Blockchain::add_block` (`main.rs:38-42`) run in isolation (no
interleaving between its two lock acquisitions): read the tail under the
first lock, mine, push under the second lock.  `none` models the `unwrap`
panic on an empty chain or a mining search still running at the fuel
bound. -/
def add_block (chain : List Block) (data : String) (timestamp fuel : Nat) :
    Option (List Block) :=
  match chain.getLast? with
  | none => none
  | some last_block =>
      match mine_block last_block data timestamp fuel with
      | none => none
      | some new_block => some (push chain new_block)

/-- Sequential driver: perform the `add_block` calls one after another,
fully serialized (each with its own payload, captured timestamp and fuel
bound), stopping with `none` if any call fails. -/
def mineSeq (chain : List Block) : List (String × Nat × Nat) → Option (List Block)
  | [] => some chain
  | (d, t, f) :: rest =>
      match add_block chain d t f with
      | none => none
      | some c => mineSeq c rest

/-! ## Interleaving model of concurrent producers

Each worker thread of `main` (`main.rs:93-101`) runs `add_block`, which
takes the chain lock twice: once to clone the tail (`main.rs:39`) and once
to push the mined block (`main.rs:41`).  Between the two, mining runs
outside any lock.  A worker is therefore a two-phase state machine, and a
schedule decides which worker performs its next locked phase. -/

/-- The phase a worker is in. -/
inductive WorkerState where
  /-- About to take the lock and clone the tail, then mine with this
  payload and captured timestamp. -/
  | ready (data : String) (timestamp : Nat)
  /-- Holding a mined candidate, about to take the lock and push it. -/
  | mined (b : Block)
  /-- The chain was empty at read time, or mining hit the fuel bound. -/
  | stuck
  /-- Push performed. -/
  | done
deriving Repr, DecidableEq

/-- One locked phase of a worker against the shared chain. -/
def stepWorker (fuel : Nat) (chain : List Block) :
    WorkerState → List Block × WorkerState
  | .ready d t =>
      match chain.getLast? with
      | none => (chain, .stuck)
      | some p =>
          match mine_block p d t fuel with
          | none => (chain, .stuck)
          | some b => (chain, .mined b)
  | .mined b => (push chain b, .done)
  | s => (chain, s)

/-- The shared state: the chain plus two workers. -/
structure SysState where
  chain : List Block
  w1 : WorkerState
  w2 : WorkerState
deriving Repr, DecidableEq

/-- One scheduler step: `true` lets worker 1 perform its next locked
phase, `false` worker 2. -/
def stepSys (fuel : Nat) (s : SysState) (choice : Bool) : SysState :=
  if choice then
    let r := stepWorker fuel s.chain s.w1
    { chain := r.1, w1 := r.2, w2 := s.w2 }
  else
    let r := stepWorker fuel s.chain s.w2
    { chain := r.1, w1 := s.w1, w2 := r.2 }

/-- Run a whole schedule (an interleaving of the two workers' locked
phases). -/
def runSched (fuel : Nat) (s : SysState) (sched : List Bool) : SysState :=
  sched.foldl (stepSys fuel) s

/-- The linkage relation between consecutive chain entries. -/
def linkRel (x y : Block) : Prop := y.prev_hash = x.hash ∧ y.index = x.index + 1

/-! ## Concrete fixtures

Blocks whose digests were computed once and are re-checked by `decide`
inside the witnesses; the timestamps were chosen so that `nonce = 0`
already satisfies the difficulty predicate. -/

/-- The genesis block of `new 1700000000`. -/
def gBlock : Block :=
  { index := 0, timestamp := 1700000000, data := "Genesis Block",
    prev_hash := zeros64, hash := zeros64, nonce := 0 }

/-- The block mined on top of `gBlock` with payload `"Block 1"` at
timestamp 1700088630. -/
def tBlock1 : Block :=
  { index := 1, timestamp := 1700088630, data := "Block 1", prev_hash := zeros64,
    hash := "0000c786ef368943ad0ec10349d3cd54266eb329efb73533b40acd4a2ef858ad",
    nonce := 0 }

/-- The block mined on top of `tBlock1` with payload `"Block 2"` at
timestamp 1700004089. -/
def tBlock2 : Block :=
  { index := 2, timestamp := 1700004089, data := "Block 2",
    prev_hash := "0000c786ef368943ad0ec10349d3cd54266eb329efb73533b40acd4a2ef858ad",
    hash := "0000173068aacf80991e80f8feebc41204e85ed6c0172cc7a88ce9f60bfe6624",
    nonce := 0 }

/-- A second block mined on top of `gBlock` (same parent as `tBlock1`)
with payload `"Block 2"` at timestamp 1700021892. -/
def tBlock2b : Block :=
  { index := 1, timestamp := 1700021892, data := "Block 2", prev_hash := zeros64,
    hash := "00007eaf546afc9ac424ed5ebae5ba39cdcc3b9eab6592b92a6fa07d2ec0a269",
    nonce := 0 }

/-! ## Soundness and completeness of the mining loop -/

/-- If the fueled loop returns a block, that block's fields are exactly the
mining inputs, its digest is the digest of its nonce, the difficulty check
holds, and every skipped nonce failed the check. -/
theorem mineLoop_sound {index timestamp : Nat} {data prev_hash : String} :
    ∀ {fuel n0 : Nat} {b : Block},
      mineLoop index timestamp data prev_hash n0 fuel = some b →
      b.index = index ∧ b.timestamp = timestamp ∧ b.data = data ∧
      b.prev_hash = prev_hash ∧
      b.hash = hash_block index timestamp data prev_hash b.nonce ∧
      (hash_block index timestamp data prev_hash b.nonce).take 4 = "0000" ∧
      n0 ≤ b.nonce ∧
      ∀ m, n0 ≤ m → m < b.nonce →
        (hash_block index timestamp data prev_hash m).take 4 ≠ "0000" := by
  intro fuel
  induction fuel with
  | zero => intro n0 b h; exact Option.noConfusion h
  | succ f ih =>
      intro n0 b h
      simp only [mineLoop] at h
      by_cases hc : (hash_block index timestamp data prev_hash n0).take 4 = "0000"
      · rw [if_pos hc] at h
        cases h
        exact ⟨rfl, rfl, rfl, rfl, rfl, hc, Nat.le_refl _, fun m hm1 hm2 => by
          have hm2' : m < n0 := hm2
          omega⟩
      · rw [if_neg hc] at h
        obtain ⟨e1, e2, e3, e4, e5, e6, e7, e8⟩ := ih h
        refine ⟨e1, e2, e3, e4, e5, e6, by omega, ?_⟩
        intro m hm1 hm2
        rcases Nat.eq_or_lt_of_le hm1 with heq | hlt
        · rw [← heq]; exact hc
        · exact e8 m hlt hm2

/-- If some nonce within the fuel bound satisfies the difficulty check,
the fueled loop returns a block. -/
theorem mineLoop_complete (index timestamp : Nat) (data prev_hash : String) :
    ∀ fuel n0 : Nat,
      (∃ k, k < fuel ∧
        (hash_block index timestamp data prev_hash (n0 + k)).take 4 = "0000") →
      ∃ b, mineLoop index timestamp data prev_hash n0 fuel = some b := by
  intro fuel
  induction fuel with
  | zero => rintro n0 ⟨k, hk, -⟩; omega
  | succ f ih =>
      rintro n0 ⟨k, hk, hvalid⟩
      by_cases hc : (hash_block index timestamp data prev_hash n0).take 4 = "0000"
      · exact ⟨_, by simp only [mineLoop]; rw [if_pos hc]⟩
      · have hk0 : k ≠ 0 := by
          rintro rfl
          exact hc (by simpa using hvalid)
        obtain ⟨b, hb⟩ := ih (n0 + 1)
          ⟨k - 1, by omega, by
            have harith : n0 + 1 + (k - 1) = n0 + k := by omega
            rw [harith]; exact hvalid⟩
        exact ⟨b, by simp only [mineLoop]; rw [if_neg hc]; exact hb⟩

/-- Restatement of `mineLoop_sound` for `mine_block` itself. -/
theorem mine_block_sound {p : Block} {d : String} {t fuel : Nat} {b : Block}
    (h : mine_block p d t fuel = some b) :
    b.index = p.index + 1 ∧ b.timestamp = t ∧ b.data = d ∧ b.prev_hash = p.hash ∧
    b.hash = hash_block (p.index + 1) t d p.hash b.nonce ∧
    (hash_block (p.index + 1) t d p.hash b.nonce).take 4 = "0000" ∧
    ∀ m, m < b.nonce → (hash_block (p.index + 1) t d p.hash m).take 4 ≠ "0000" := by
  have h' : mineLoop (p.index + 1) t d p.hash 0 fuel = some b := h
  obtain ⟨e1, e2, e3, e4, e5, e6, -, e8⟩ := mineLoop_sound h'
  exact ⟨e1, e2, e3, e4, e5, e6, fun m hm => e8 m (Nat.zero_le m) hm⟩

/-! ## Claim theorems -/

/-- C1: for every previous block `p` and payload `d`, `mine_block p d`
returns a block whose `index` is `p.index + 1`, whose `prev_hash` is
`p.hash`, whose `timestamp` is the single value captured at the start of
the call (the `timestamp` parameter, used unchanged in every hashing
attempt), whose `nonce` is the smallest natural number whose digest starts
with four zero hex characters (the search runs from 0 upward with no
gaps), and whose `hash` field is exactly that digest. -/
theorem mine_block_spec (p : Block) (d : String) (t fuel : Nat) (b : Block)
    (h : mine_block p d t fuel = some b) :
    b.index = p.index + 1 ∧ b.prev_hash = p.hash ∧ b.timestamp = t ∧
    b.hash = hash_block (p.index + 1) t d p.hash b.nonce ∧
    (hash_block (p.index + 1) t d p.hash b.nonce).take 4 = "0000" ∧
    ∀ m, m < b.nonce → (hash_block (p.index + 1) t d p.hash m).take 4 ≠ "0000" := by
  obtain ⟨e1, e2, -, e4, e5, e6, e7⟩ := mine_block_sound h
  exact ⟨e1, e4, e2, e5, e6, e7⟩

/-- Witness for C1 at a concrete input: mining on top of `gBlock` with
payload `"Block 1"` and captured timestamp 1700088630 succeeds (with
nonce 0), and the claim theorem instantiates there. -/
theorem mine_block_spec_witness :
    mine_block gBlock "Block 1" 1700088630 1 = some tBlock1 ∧
    tBlock1.index = gBlock.index + 1 ∧ tBlock1.prev_hash = gBlock.hash ∧
    tBlock1.timestamp = 1700088630 :=
  have h : mine_block gBlock "Block 1" 1700088630 1 = some tBlock1 := by decide
  have spec := mine_block_spec gBlock "Block 1" 1700088630 1 tBlock1 h
  ⟨h, spec.1, spec.2.1, spec.2.2.1⟩

/-- C2: every block returned by the mining operation has a digest whose
first four hex characters are zeros (difficulty 4, as a prefix match). -/
theorem mine_block_difficulty (p : Block) (d : String) (t fuel : Nat) (b : Block)
    (h : mine_block p d t fuel = some b) : b.hash.take 4 = "0000" := by
  obtain ⟨-, -, -, -, e5, e6, -⟩ := mine_block_sound h
  rw [e5]; exact e6

/-- Witness for C2 at a concrete input. -/
theorem mine_block_difficulty_witness :
    mine_block gBlock "Block 2" 1700021892 1 = some tBlock2b ∧
    tBlock2b.hash.take 4 = "0000" :=
  have h : mine_block gBlock "Block 2" 1700021892 1 = some tBlock2b := by decide
  ⟨h, mine_block_difficulty gBlock "Block 2" 1700021892 1 tBlock2b h⟩

/-- C8: the search has no iteration cap: `mine_block` terminates (returns a
block under some fuel bound) iff some nonce makes the digest of
`(p.index + 1, t, d, p.hash, nonce)` start with four zero hex characters;
when no such nonce exists the loop returns under no fuel bound at all,
i.e. the unbounded Rust loop never returns. -/
theorem mine_block_terminates_iff (p : Block) (d : String) (t : Nat) :
    ((∃ fuel b, mine_block p d t fuel = some b) ↔
      (∃ n, (hash_block (p.index + 1) t d p.hash n).take 4 = "0000")) ∧
    ((¬ ∃ n, (hash_block (p.index + 1) t d p.hash n).take 4 = "0000") →
      ∀ fuel, mine_block p d t fuel = none) := by
  have hiff : (∃ fuel b, mine_block p d t fuel = some b) ↔
      (∃ n, (hash_block (p.index + 1) t d p.hash n).take 4 = "0000") := by
    constructor
    · rintro ⟨fuel, b, h⟩
      obtain ⟨-, -, -, -, -, e6, -⟩ := mine_block_sound h
      exact ⟨b.nonce, e6⟩
    · rintro ⟨n, hn⟩
      obtain ⟨b, hb⟩ := mineLoop_complete (p.index + 1) t d p.hash (n + 1) 0
        ⟨n, by omega, by simpa using hn⟩
      exact ⟨n + 1, b, hb⟩
  refine ⟨hiff, ?_⟩
  intro hno fuel
  cases hmb : mine_block p d t fuel with
  | none => rfl
  | some b => exact absurd (hiff.mp ⟨fuel, b, hmb⟩) hno

/-- A successful `add_block` call pushes exactly the mined block: the tail
was read, mining succeeded, and the result is the old chain with the new
block appended. -/
theorem add_block_eq {c c' : List Block} {d : String} {t f : Nat}
    (h : add_block c d t f = some c') :
    ∃ p b, c.getLast? = some p ∧ mine_block p d t f = some b ∧ c' = c ++ [b] := by
  unfold add_block at h
  split at h
  · exact Option.noConfusion h
  · rename_i p hg
    split at h
    · exact Option.noConfusion h
    · rename_i b hm
      cases h
      exact ⟨p, b, hg, hm, rfl⟩

/-- A successful `add_block` preserves the linkage invariant. -/
theorem add_block_linked {c c' : List Block} {d : String} {t f : Nat}
    (h : add_block c d t f = some c') (hc : List.Chain' linkRel c) :
    List.Chain' linkRel c' := by
  obtain ⟨p, b, hg, hm, rfl⟩ := add_block_eq h
  obtain ⟨e1, -, -, e4, -, -, -⟩ := mine_block_sound hm
  refine List.Chain'.append hc (List.chain'_singleton b) ?_
  intro x hx y hy
  have hxp : p = x := by
    have hx' : c.getLast? = some x := Option.mem_def.mp hx
    exact Option.some.inj (hg.symm.trans hx')
  have hyb : b = y := by
    have hy' : (some b : Option Block) = some y := Option.mem_def.mp hy
    exact Option.some.inj hy'
  rw [← hxp, ← hyb]
  exact ⟨e4, e1⟩

/-- Sequential `add_block` calls preserve the linkage invariant. -/
theorem mineSeq_linked (jobs : List (String × Nat × Nat)) :
    ∀ {c c' : List Block}, mineSeq c jobs = some c' →
      List.Chain' linkRel c → List.Chain' linkRel c' := by
  induction jobs with
  | nil =>
      intro c c' h hc
      simp only [mineSeq] at h
      cases h
      exact hc
  | cons job rest ih =>
      intro c c' h hc
      obtain ⟨d, t, f⟩ := job
      simp only [mineSeq] at h
      cases ha : add_block c d t f with
      | none => rw [ha] at h; exact Option.noConfusion h
      | some c1 =>
          rw [ha] at h
          exact ih h (add_block_linked ha hc)

/-- C3: a chain obtained by mining and appending blocks strictly
sequentially on top of a fresh chain satisfies, at every position `i` with
`i + 1` in range, `chain[i+1].prev_hash = chain[i].hash` and
`chain[i+1].index = chain[i].index + 1`. -/
theorem chain_linked (t0 : Nat) (jobs : List (String × Nat × Nat)) (c : List Block)
    (h : mineSeq (new t0) jobs = some c) (i : Nat) (hi : i + 1 < c.length) :
    (c.get ⟨i + 1, hi⟩).prev_hash = (c.get ⟨i, Nat.lt_of_succ_lt hi⟩).hash ∧
    (c.get ⟨i + 1, hi⟩).index = (c.get ⟨i, Nat.lt_of_succ_lt hi⟩).index + 1 := by
  have hchain : List.Chain' linkRel c :=
    mineSeq_linked jobs h (by rw [new]; exact List.chain'_singleton _)
  have hrel := List.chain'_iff_get.mp hchain i (by omega)
  exact ⟨hrel.1, hrel.2⟩

/-- Witness for C3: mining `"Block 1"` then `"Block 2"` sequentially on a
fresh chain yields the concrete three-block chain, and the linkage holds
between its last two entries. -/
theorem chain_linked_witness :
    mineSeq (new 1700000000) [("Block 1", 1700088630, 1), ("Block 2", 1700004089, 1)] =
      some [gBlock, tBlock1, tBlock2] ∧
    tBlock2.prev_hash = tBlock1.hash ∧ tBlock2.index = tBlock1.index + 1 :=
  have h : mineSeq (new 1700000000)
      [("Block 1", 1700088630, 1), ("Block 2", 1700004089, 1)] =
      some [gBlock, tBlock1, tBlock2] := by decide
  ⟨h, chain_linked 1700000000 _ _ h 1 (by decide)⟩

/-- C4: the chain append (`Vec::push`) admits any block unconditionally:
for every chain state and every block — whatever its `prev_hash`, `index`
or `hash` fields hold — the operation succeeds, extends the chain by that
one block at the end, and performs no check of any kind. -/
theorem push_unconditional (c : List Block) (b : Block) :
    push c b = c ++ [b] ∧ (push c b).length = c.length + 1 ∧
    (push c b).take c.length = c ∧ (push c b).getLast? = some b := by
  refine ⟨rfl, ?_, ?_, ?_⟩
  · simp [push]
  · simp [push, List.take_left]
  · simp [push]

/-- C6: a freshly created chain contains exactly one block, the genesis
block, with `index = 0`, `prev_hash` the 64-character all-zero sentinel,
and `hash` the same all-zero sentinel (a synthesized seed, not a digest
produced by `hash_block`). -/
theorem new_spec (t : Nat) :
    (new t).length = 1 ∧
    new t = [{ index := 0, timestamp := t, data := "Genesis Block",
               prev_hash := zeros64, hash := zeros64, nonce := 0 }] ∧
    zeros64.length = 64 ∧ ∀ c0 ∈ zeros64.data, c0 = '0' := by
  refine ⟨rfl, rfl, by decide, ?_⟩
  intro c0 hc0
  exact List.eq_of_mem_replicate hc0

/-- C7: the chain is append-only: a successful `add_block` extends the
sequence by exactly one block at the end, and every block present before
the call is still present, unchanged, at the same position afterwards. -/
theorem add_block_frame (c : List Block) (d : String) (t f : Nat) (c' : List Block)
    (h : add_block c d t f = some c') :
    (∃ nb, c' = c ++ [nb]) ∧ c'.length = c.length + 1 ∧ c'.take c.length = c := by
  obtain ⟨p, b, -, -, rfl⟩ := add_block_eq h
  exact ⟨⟨b, rfl⟩, by simp, by simp [List.take_left]⟩

/-- Witness for C7: one concrete `add_block` on a fresh chain. -/
theorem add_block_frame_witness :
    add_block (new 1700000000) "Block 1" 1700088630 1 = some [gBlock, tBlock1] ∧
    [gBlock, tBlock1].length = (new 1700000000).length + 1 ∧
    [gBlock, tBlock1].take (new 1700000000).length = new 1700000000 :=
  have h : add_block (new 1700000000) "Block 1" 1700088630 1 =
      some [gBlock, tBlock1] := by decide
  have frame := add_block_frame (new 1700000000) "Block 1" 1700088630 1 [gBlock, tBlock1] h
  ⟨h, frame.2.1, frame.2.2⟩

/-- C5: because the tail read and the append are two separately locked
phases rather than one atomic transaction, there is an interleaving of two
concurrent producers — both read the same tail, both mine a block
referencing that tail's hash and index, and both append successfully —
whose final chain contains, at two distinct positions, blocks with the
same `index` and the same `prev_hash`: a silent fork. -/
theorem fork_two_producers (c : List Block) (p b1 b2 : Block) (d1 d2 : String)
    (t1 t2 fuel : Nat)
    (hp : c.getLast? = some p)
    (h1 : mine_block p d1 t1 fuel = some b1)
    (h2 : mine_block p d2 t2 fuel = some b2) :
    ∃ sched : List Bool, ∃ i j : Nat, ∃ x y : Block,
      (runSched fuel ⟨c, .ready d1 t1, .ready d2 t2⟩ sched).chain = c ++ [b1, b2] ∧
      i ≠ j ∧
      (c ++ [b1, b2])[i]? = some x ∧ (c ++ [b1, b2])[j]? = some y ∧
      x.index = y.index ∧ x.prev_hash = y.prev_hash := by
  obtain ⟨e1, -, -, e4, -, -, -⟩ := mine_block_sound h1
  obtain ⟨f1, -, -, f4, -, -, -⟩ := mine_block_sound h2
  refine ⟨[true, false, true, false], c.length, c.length + 1, b1, b2, ?_, by omega,
    ?_, ?_, by rw [e1, f1], by rw [e4, f4]⟩
  · simp only [runSched, List.foldl, stepSys, if_true, Bool.false_eq_true, if_false,
      stepWorker, hp, h1, h2, push]
    simp [List.append_assoc]
  · rw [List.getElem?_append_right (Nat.le_refl _)]
    simp
  · rw [List.getElem?_append_right (by omega)]
    have harith : c.length + 1 - c.length = 1 := by omega
    rw [harith]
    simp

/-- Witness for C5: both workers read the genesis tail of a fresh chain,
mine with their own payloads and timestamps, and append in turn; the claim
theorem instantiates there. -/
theorem fork_two_producers_witness :
    (new 1700000000).getLast? = some gBlock ∧
    mine_block gBlock "Block 1" 1700088630 1 = some tBlock1 ∧
    mine_block gBlock "Block 2" 1700021892 1 = some tBlock2b ∧
    ∃ sched : List Bool, ∃ i j : Nat, ∃ x y : Block,
      (runSched 1 ⟨new 1700000000, .ready "Block 1" 1700088630,
        .ready "Block 2" 1700021892⟩ sched).chain =
        new 1700000000 ++ [tBlock1, tBlock2b] ∧
      i ≠ j ∧
      (new 1700000000 ++ [tBlock1, tBlock2b])[i]? = some x ∧
      (new 1700000000 ++ [tBlock1, tBlock2b])[j]? = some y ∧
      x.index = y.index ∧ x.prev_hash = y.prev_hash :=
  have hp : (new 1700000000).getLast? = some gBlock := by decide
  have h1 : mine_block gBlock "Block 1" 1700088630 1 = some tBlock1 := by decide
  have h2 : mine_block gBlock "Block 2" 1700021892 1 = some tBlock2b := by decide
  ⟨hp, h1, h2,
    fork_two_producers (new 1700000000) gBlock tBlock1 tBlock2b
      "Block 1" "Block 2" 1700088630 1700021892 1 hp h1 h2⟩

/-- C9: the pre-image concatenates decimal renderings with no separators,
so the distinct field tuples `(index 1, timestamp 23)` and
`(index 12, timestamp 3)` (other fields equal) have equal pre-images and
hence identical digests, for every payload, prev-hash and nonce. -/
theorem hash_block_collision (d p : String) (n : Nat) :
    ((1, 23) : Nat × Nat) ≠ (12, 3) ∧
    preimage 1 23 d p n = preimage 12 3 d p n ∧
    hash_block 1 23 d p n = hash_block 12 3 d p n := by
  have h12 : (toString (1 : Nat) ++ toString (23 : Nat) : String) =
      toString (12 : Nat) ++ toString (3 : Nat) := by decide
  have hpre : preimage 1 23 d p n = preimage 12 3 d p n := by
    unfold preimage
    rw [h12]
  exact ⟨by decide, hpre, by unfold hash_block; rw [hpre]⟩

/-- The sixteen lowercase hex digit characters, as the image of the
nibble range under `hexDigit`. -/
def hexCharList : List Char := (List.range 16).map hexDigit

/-- Every nibble maps to one of the sixteen lowercase hex characters. -/
theorem hexDigit_mem {n : Nat} (h : n < 16) : hexDigit n ∈ hexCharList := by
  interval_cases n <;> decide

/-- Every byte of `wordBytes` is below 256. -/
theorem wordBytes_lt {w : Nat} : ∀ b ∈ wordBytes w, b < 256 := by
  intro b hb
  simp only [wordBytes, List.mem_cons, List.not_mem_nil, or_false] at hb
  rcases hb with rfl | rfl | rfl | rfl <;> omega

/-- Every byte of a SHA-256 digest is below 256. -/
theorem sha256_bytes_lt (msg : List Nat) : ∀ b ∈ sha256 msg, b < 256 := by
  intro b hb
  simp only [sha256, List.mem_append] at hb
  rcases hb with ((((((h | h) | h) | h) | h) | h) | h) | h <;> exact wordBytes_lt _ h

/-- A SHA-256 digest always has 32 bytes. -/
theorem sha256_length (msg : List Nat) : (sha256 msg).length = 32 := by
  simp [sha256, wordBytes]

/-- The hex rendering emits two characters per byte. -/
theorem hexPairs_length (bs : List Nat) :
    (bs.flatMap fun b => [hexDigit (b / 16), hexDigit (b % 16)]).length =
      2 * bs.length := by
  induction bs with
  | nil => rfl
  | cons b bs ih =>
      simp only [List.flatMap_cons, List.length_append, List.length_cons, ih,
        List.length_nil, List.length_cons]
      omega

/-- C10: every string produced by `hash_block` is a 64-character rendering
whose characters are all lowercase hex digits — in particular single-byte
ASCII — so taking the 4-character prefix in the mining loop's difficulty
check is always well-defined. -/
theorem hash_block_wellformed (i t : Nat) (d p : String) (n : Nat) :
    (hash_block i t d p n).length = 64 ∧
    (∀ c1 ∈ (hash_block i t d p n).data, c1 ∈ hexCharList ∧ c1.toNat < 128) ∧
    4 ≤ (hash_block i t d p n).length := by
  have hlen : (hash_block i t d p n).length = 64 := by
    show ((sha256 (utf8Bytes (preimage i t d p n))).flatMap
      fun b => [hexDigit (b / 16), hexDigit (b % 16)]).length = 64
    rw [hexPairs_length, sha256_length]
  refine ⟨hlen, ?_, by omega⟩
  intro c1 hc1
  have hmemfm : c1 ∈ (sha256 (utf8Bytes (preimage i t d p n))).flatMap
      fun b => [hexDigit (b / 16), hexDigit (b % 16)] := hc1
  rw [List.mem_flatMap] at hmemfm
  obtain ⟨b, hb, hcb⟩ := hmemfm
  have hb256 := sha256_bytes_lt _ b hb
  have hcases : c1 = hexDigit (b / 16) ∨ c1 = hexDigit (b % 16) := by
    simpa using hcb
  have hmem : c1 ∈ hexCharList := by
    rcases hcases with rfl | rfl
    · exact hexDigit_mem (by omega)
    · exact hexDigit_mem (by omega)
  have hascii : ∀ x ∈ hexCharList, x.toNat < 128 := by decide
  exact ⟨hmem, hascii c1 hmem⟩

end Blockchain
